import Mathlib

/-!
Verification of the feed-polling and notification-matching engine of the
TGBot_RSS repository (Go).  The Go source in `TGRSSBot/rss.go` and the push
statistics code are shallowly embedded below: pure Go functions become Lean
functions over `List Char` / `Nat`; the sqlite watermark store is threaded
as explicit state (`FeedData`); `time.Time` values are modelled as `Nat`
with `0` playing the role of the Go zero time and `Time.After` as strict
`<`; fallible feed parsing is an `Except` input.  Calls into the Go
standard library (`strings`, `regexp`) are modelled by executable Lean
functions with the same observable behaviour, noted at each definition.
-/

namespace TGBotRSS

/-! ## Character and string helpers (models of Go `strings` functions) -/

/-- Whitespace recognised by Go `unicode.IsSpace` restricted to the code
points that can occur in this data (ASCII whitespace plus NEL and NBSP);
used to model `strings.TrimSpace`. -/
def isGoSpace (c : Char) : Bool :=
  c = ' ' || c = '\t' || c = '\n' || c = Char.ofNat 11 || c = Char.ofNat 12 ||
  c = '\r' || c = Char.ofNat 133 || c = Char.ofNat 160

/-- Whitespace class of Go regexp `\s`, namely `[\t\n\f\r ]`. -/
def isRegexSpace (c : Char) : Bool :=
  c = '\t' || c = '\n' || c = Char.ofNat 12 || c = '\r' || c = ' '

/-- Model of Go `strings.TrimSpace` on a rune list. -/
def listTrim (cs : List Char) : List Char :=
  ((cs.dropWhile isGoSpace).reverse.dropWhile isGoSpace).reverse

/-- Does `cs` start with `pat`?  Model of Go `strings.HasPrefix`. -/
def startsWithList : List Char → List Char → Bool
  | _, [] => true
  | [], _ :: _ => false
  | c :: t, p :: ps => if c = p then startsWithList t ps else false

/-- Does `hay` contain `pat` as a contiguous substring?  Model of Go
`strings.Contains`; like the Go function it is `true` for the empty
pattern. -/
def containsList (pat : List Char) : List Char → Bool
  | [] => startsWithList [] pat
  | c :: t => startsWithList (c :: t) pat || containsList pat t

/-- Model of Go `strings.ToLower` (per-rune lowering; Go and Lean agree on
ASCII letters, and the other characters appearing in this development are
case-less). -/
def goToLowerList (cs : List Char) : List Char :=
  cs.map Char.toLower

/-- Model of Go `strings.Split` for a single separator character, as used
by the wildcard translation (splitting a keyword on each `*`). -/
def splitOnChar (sep : Char) : List Char → List (List Char)
  | [] => [[]]
  | c :: t =>
    if c = sep then [] :: splitOnChar sep t
    else
      match splitOnChar sep t with
      | [] => [[c]]
      | h :: rest => (c :: h) :: rest

/-- `true` when the list has no newline character.  A `.*` in a Go regular
expression matches any run of characters that contains no newline. -/
def noNewline : List Char → Bool
  | [] => true
  | c :: t => if c = '\n' then false else noNewline t

/-! ## Wildcard matching

`matchesKeywords` turns a keyword containing `*` into the Go regular
expression `^.*` ++ (keyword with every `*` replaced by `.*`) ++ `.*$` and
runs it over the corpus.  For a keyword whose characters other than `*`
are regex-literal, that pattern matches exactly when the corpus splits as
glue ++ seg₀ ++ glue ++ seg₁ ++ … ++ glue with every glue free of
newlines.  `wildAuxF` decides that (fuel-structural so that the kernel can
evaluate it; fuel `cs.length + segs.length + 1` always suffices). -/

def wildAuxF : Nat → List Char → List (List Char) → Bool
  | _, cs, [] => noNewline cs
  | 0, _, _ :: _ => false
  | fuel + 1, cs, seg :: rest =>
    (startsWithList cs seg && wildAuxF fuel (cs.drop seg.length) rest)
    || (match cs with
        | [] => false
        | c :: t => if c = '\n' then false else wildAuxF fuel t (seg :: rest))

/-- Does the anchored wildcard pattern with literal segments `segs` match
`cs`? -/
def wildMatch (cs : List Char) (segs : List (List Char)) : Bool :=
  wildAuxF (cs.length + segs.length + 1) cs segs

/-- Characters that are metacharacters of Go regexp syntax (other than
`*`, which the code replaces before compiling).  The embedding models the
compiled regular expression only for keywords free of these; for any other
keyword the model conservatively reports no regex match, which sends the
code to its substring fallback branch. -/
def isRegexMeta (c : Char) : Bool :=
  c = '\\' || c = '(' || c = ')' || c = '[' || c = ']' || c = Char.ofNat 123 ||
  c = Char.ofNat 125 || c = '?' || c = '+' || c = '^' || c = '$' || c = '.' || c = '|'

/-- Model of the regex branch of `matchesKeywords`: compile
`^.*` ++ replaceAll(lower, `*`, `.*`) ++ `.*$` and run it on `content`
(lines 236-241 of rss.go). -/
def wildcardRegexMatch (content lower : List Char) : Bool :=
  lower.all (fun c => !(isRegexMeta c)) && wildMatch content (splitOnChar '*' lower)

/-- Modelled from the spec: the anchored pattern
`^.*seg₀.*seg₁….*segₙ.*$` (each `*` of the rule replaced by a
match-anything gap, the whole corpus anchored) matches `cs` exactly when
`cs` decomposes into the literal segments, in order, separated and
surrounded by arbitrary newline-free glue (a `.` of a Go regular
expression does not match a newline).  This is the declarative reading of
the spec sentence; `wildMatch` is proved equivalent to it. -/
inductive SpecAnchoredMatch : List (List Char) → List Char → Prop where
  | done (cs : List Char) (h : ∀ c ∈ cs, c ≠ '\n') : SpecAnchoredMatch [] cs
  | seg (s : List Char) (segs : List (List Char)) (g rest : List Char)
      (hg : ∀ c ∈ g, c ≠ '\n') (h : SpecAnchoredMatch segs rest) :
      SpecAnchoredMatch (s :: segs) (g ++ (s ++ rest))

/-! ## Data model -/

/-- One parsed feed item as delivered by the gofeed library: title,
description, link and the optional parsed published/updated timestamps.
Timestamps are `Nat` (`0` = Go zero time, `Time.After` = `<`). -/
structure Item where
  title : String
  description : String
  link : String
  publishedParsed : Option Nat
  updatedParsed : Option Nat
deriving DecidableEq

/-- The transient `Message` struct built by `fetchRSS` (rss.go lines
150-155). -/
structure Message where
  title : String
  description : String
  link : String
  pubDate : Nat
deriving DecidableEq

/-- One row of the `feed_data` table: the stored watermark
(`last_update_time`, `latest_title`) for a feed. -/
structure FeedData where
  lastUpdateTime : Nat
  latestTitle : String
deriving DecidableEq

/-! ## Feed fetching (rss.go `fetchRSS`, `getItemTime`) -/

/-- `getItemTime` (rss.go lines 168-176): published time if parsed, else
updated time if parsed, else the current processing time. -/
def getItemTime (item : Item) (now : Nat) : Nat :=
  match item.publishedParsed with
  | some t => t
  | none =>
    match item.updatedParsed with
    | some t => t
    | none => now

/-- The `Message` literal built for a new item (rss.go lines 150-155). -/
def itemMessage (item : Item) (now : Nat) : Message :=
  Message.mk item.title item.description item.link (getItemTime item now)

/-- One iteration of the item loop of `fetchRSS` (rss.go lines 142-157):
track the maximum effective time seen, and append the item as a new
message when its effective time is strictly after the stored watermark. -/
def fetchStep (last now : Nat) (acc : List Message × Nat) (item : Item) :
    List Message × Nat :=
  let pubTime := getItemTime item now
  let latestTime := if acc.2 < pubTime then pubTime else acc.2
  let messages := if last < pubTime then acc.1 ++ [itemMessage item now] else acc.1
  (messages, latestTime)

/-- The item loop of `fetchRSS`, started from no messages and the zero
`latestTime`. -/
def fetchLoop (last now : Nat) (items : List Item) : List Message × Nat :=
  items.foldl (fetchStep last now) ([], 0)

/-- `fetchRSS` (rss.go lines 117-165).  The network/parse step is the
`Except` input; the watermark row is the `FeedData` input and the second
component of the result (the happy path of `getLastUpdateTime` reads it,
`updateLastTime` writes it).  A parse error is returned unchanged and the
stored watermark is untouched; a feed with zero items returns no messages
and also leaves the watermark untouched; otherwise the watermark is
overwritten with the maximum effective item time (unless that maximum is
the zero time) together with the first item title. -/
def fetchRSS (parsed : Except String (List Item)) (fd : FeedData) (now : Nat) :
    Except String (List Message) × FeedData :=
  match parsed with
  | Except.error e => (Except.error e, fd)
  | Except.ok [] => (Except.ok [], fd)
  | Except.ok (first :: rest) =>
    let r := fetchLoop fd.lastUpdateTime now (first :: rest)
    if r.2 = 0 then (Except.ok r.1, fd)
    else (Except.ok r.1, FeedData.mk r.2 first.title)

/-! ## Keyword matching (rss.go `matchesKeywords`) -/

/-- The test applied to one (already trimmed and `-`-stripped) keyword
against the corpus (rss.go lines 230-258): lowercase it; if it contains
`*`, try the derived anchored regular expression; if that does not match
(or the pattern is not in the modelled regex-literal fragment, the
compile-failure case), fall back to plain substring containment of the
lowercased keyword, `*` included. -/
def keywordHit (content : List Char) (kw : List Char) : Bool :=
  let lower := goToLowerList kw
  (containsList ['*'] lower && wildcardRegexMatch content lower)
    || containsList lower content

/-- One iteration of the keyword loop of `matchesKeywords` (rss.go lines
217-259), accumulating the matched and blocked keyword lists: trim the
keyword, skip it when empty, strip a leading `-` (marking a block
keyword), and on a hit append it to the corresponding list. -/
def matchKeywordStep (content : List Char)
    (acc : List (List Char) × List (List Char)) (keyword : String) :
    List (List Char) × List (List Char) :=
  let kw := listTrim keyword.toList
  if kw = [] then acc
  else
    let isBlock := startsWithList kw ['-']
    let kw2 := if isBlock then kw.drop 1 else kw
    if keywordHit content kw2 then
      if isBlock then (acc.1, acc.2 ++ [kw2]) else (acc.1 ++ [kw2], acc.2)
    else acc

/-- Does this keyword act as a hitting block rule on `content`: nonempty
after trimming, marked with the `-` sigil, and (with the sigil stripped)
hitting the corpus?  This names the exact condition under which the loop
of `matchesKeywords` appends to its blocked list. -/
def keywordBlocks (content : List Char) (keyword : String) : Bool :=
  let kw := listTrim keyword.toList
  if kw = [] then false
  else if startsWithList kw ['-'] then keywordHit content (kw.drop 1)
  else false

/-- The match corpus: lowercased title ++ " " ++ description (rss.go line
214). -/
def msgContent (msg : Message) : List Char :=
  goToLowerList (msg.title ++ " " ++ msg.description).toList

/-- `matchesKeywords` (rss.go lines 207-269): returns the matched keyword
list, or the empty list when the rule set is empty or any block keyword
hit. -/
def matchesKeywords (msg : Message) (keywords : List String) : List String :=
  if keywords = [] then []
  else
    let acc := keywords.foldl (matchKeywordStep (msgContent msg)) ([], [])
    if acc.2 = [] then acc.1.map String.mk else []

/-! ## Per-subscription push fan-out (rss.go `processSubscription`) -/

/-- The body of the inner user loop of `processSubscription` (rss.go
lines 290-346): skip a user with no stored keywords, and push to the user
exactly when `matchesKeywords` is non-empty. -/
def pushUserStep (msg : Message) (userKeywords : Int → List String)
    (acc : List (Int × Message)) (userID : Int) :
    List (Int × Message) :=
  let keywords := userKeywords userID
  if keywords = [] then acc
  else if matchesKeywords msg keywords = [] then acc
  else acc ++ [(userID, msg)]

/-- The push loop of `processSubscription` (rss.go lines 289-348) on the
messages returned by `fetchRSS`.  Delivery is modelled as the ordered
list of (user, message) pushes handed to the transport. -/
def processSubscription (messages : List Message) (users : List Int)
    (userKeywords : Int → List String) : List (Int × Message) :=
  messages.foldl (fun acc msg => users.foldl (pushUserStep msg userKeywords) acc) []

/-! ## Push statistics (`PushStats`, `resetPushStatsIfNeeded`, `recordPush`) -/

/-- The in-memory daily push statistics; the per-feed Go map is modelled
as a total function defaulting to `0`. -/
structure PushStats where
  date : String
  totalPush : Nat
  byRSS : String → Nat

/-- `resetPushStatsIfNeeded`: when the observed wall-clock date differs
from the stored date, reset the counters and clear the per-feed map. -/
def resetPushStatsIfNeeded (st : PushStats) (currentDate : String) : PushStats :=
  if st.date = currentDate then st
  else PushStats.mk currentDate 0 (fun _ => 0)

/-- `recordPush`: first reset lazily when the observed date differs from
the stored date, then increment the total and the per-feed counter. -/
def recordPush (st : PushStats) (rssName : String) (currentDate : String) : PushStats :=
  let st1 :=
    if st.date = currentDate then st
    else PushStats.mk currentDate 0 (fun _ => 0)
  PushStats.mk st1.date (st1.totalPush + 1)
    (fun n => if n = rssName then st1.byRSS n + 1 else st1.byRSS n)

/-! ## HTML sanitisation (rss.go `cleanHTMLContent`)

Each `regexp.MustCompile(...).ReplaceAllString` call of the Go source is
modelled by a leftmost-first scan driven by a matcher: at every position
the matcher either recognises a match (returning the replacement output
and the remainder after the match) or the scan keeps the character and
moves one position on.  The scan is fuel-structural (fuel = input length,
which always suffices because every match consumes at least one
character), so the kernel can evaluate it. -/

/-- Leftmost-first replace-all driver, with fuel. -/
def scanReplaceF (f : List Char → Option (List Char × List Char)) :
    Nat → List Char → List Char
  | _, [] => []
  | 0, cs => cs
  | fuel + 1, c :: t =>
    match f (c :: t) with
    | some (out, rest) => out ++ scanReplaceF f fuel rest
    | none => c :: scanReplaceF f fuel t

/-- Leftmost-first replace-all over a whole list. -/
def scanReplace (f : List Char → Option (List Char × List Char))
    (cs : List Char) : List Char :=
  scanReplaceF f cs.length cs

/-- Skip to just past the first `>`; the regex fragment
between an opening bracket and its closing `>` is always matched by
this because the intervening class excludes `>`. -/
def dropThroughGt : List Char → Option (List Char)
  | [] => none
  | c :: t => if c = '>' then some t else dropThroughGt t

/-- Matcher for a literal pattern, replacing it by `repl`; models
`ReplaceAllString` on a regex with no metacharacters (the placeholder
round-trips of rss.go lines 449-460 and 472-485). -/
def litMatcher (pat repl : String) (cs : List Char) :
    Option (List Char × List Char) :=
  if pat.toList = [] then none
  else if startsWithList cs pat.toList then
    some (repl.toList, cs.drop pat.toList.length)
  else none

/-- Matcher for the img-tag regex of rss.go line 437 (drop the tag). -/
def imgMatcher (cs : List Char) : Option (List Char × List Char) :=
  if startsWithList cs "<img".toList then
    match dropThroughGt (cs.drop 4) with
    | some rest => some ([], rest)
    | none => none
  else none

/-- Matcher for the br-tag regex of rss.go line 441 (replace by a
newline): after `<br`, any run of regex whitespace, an optional slash,
then `>`. -/
def brMatcher (cs : List Char) : Option (List Char × List Char) :=
  if startsWithList cs "<br".toList then
    match (cs.drop 3).dropWhile isRegexSpace with
    | '/' :: '>' :: r => some (['\n'], r)
    | '>' :: r => some (['\n'], r)
    | _ => none
  else none

/-- Matcher for the generic tag-stripping regex of rss.go line 468. -/
def stripTagMatcher (cs : List Char) : Option (List Char × List Char) :=
  match cs with
  | '<' :: t =>
    match dropThroughGt t with
    | some rest => some ([], rest)
    | none => none
  | _ => none

/-- Is this character one of the two quote characters accepted around an
href value? -/
def isQuote (c : Char) : Bool :=
  c = '"' || c = Char.ofNat 39

/-- Matcher for the a-tag regex of rss.go line 463: `<a`, one or more
regex spaces, `href=`, a quoted non-empty value, the rest of the tag up
to `>`; replaced by the A placeholder wrapping the captured value. -/
def aTagMatcher (cs : List Char) : Option (List Char × List Char) :=
  if startsWithList cs "<a".toList then
    match cs.drop 2 with
    | [] => none
    | c :: t =>
      if isRegexSpace c then
        let t1 := t.dropWhile isRegexSpace
        if startsWithList t1 "href=".toList then
          match t1.drop 5 with
          | [] => none
          | q :: t2 =>
            if isQuote q then
              let cap := t2.takeWhile (fun d => !(isQuote d))
              if cap = [] then none
              else
                match t2.drop cap.length with
                | [] => none
                | q2 :: t3 =>
                  if isQuote q2 then
                    match dropThroughGt t3 with
                    | some rest => some ("§§§A§§§".toList ++ cap ++ "§§§".toList, rest)
                    | none => none
                  else none
            else none
        else none
      else none
  else none

/-- Shortest capture for the lazy group of the A-placeholder restoring
regex of rss.go line 484: the nearest following `§§§`, with no newline in
between (regex `.` does not cross newlines). -/
def findCap : List Char → Option (List Char × List Char)
  | [] => none
  | c :: t =>
    if startsWithList (c :: t) "§§§".toList then some ([], (c :: t).drop 3)
    else if c = '\n' then none
    else
      match findCap t with
      | some p => some (c :: p.1, p.2)
      | none => none

/-- Matcher restoring the A placeholder to an anchor tag (rss.go line
484). -/
def aRestoreMatcher (cs : List Char) : Option (List Char × List Char) :=
  if startsWithList cs "§§§A§§§".toList then
    match findCap (cs.drop 7) with
    | some (cap, rest) => some ("<a href=\"".toList ++ cap ++ "\">".toList, rest)
    | none => none
  else none

/-- Matcher collapsing runs of three or more newlines to two (rss.go line
488). -/
def newlinesMatcher (cs : List Char) : Option (List Char × List Char) :=
  let run := cs.takeWhile (fun c => c = '\n')
  if 3 ≤ run.length then some (['\n', '\n'], cs.drop run.length) else none

/-- `cleanHTMLContent` (rss.go lines 435-492), as the exact pipeline of
replace-all passes of the Go source, in source order. -/
def cleanHTMLContent (htmlContent : String) : String :=
  let content := scanReplace imgMatcher htmlContent.toList
  let content := scanReplace brMatcher content
  let content := scanReplace (litMatcher "<b>" "§§§B§§§") content
  let content := scanReplace (litMatcher "</b>" "§§§/B§§§") content
  let content := scanReplace (litMatcher "<i>" "§§§I§§§") content
  let content := scanReplace (litMatcher "</i>" "§§§/I§§§") content
  let content := scanReplace (litMatcher "<u>" "§§§U§§§") content
  let content := scanReplace (litMatcher "</u>" "§§§/U§§§") content
  let content := scanReplace (litMatcher "<s>" "§§§S§§§") content
  let content := scanReplace (litMatcher "</s>" "§§§/S§§§") content
  let content := scanReplace (litMatcher "<code>" "§§§CODE§§§") content
  let content := scanReplace (litMatcher "</code>" "§§§/CODE§§§") content
  let content := scanReplace (litMatcher "<pre>" "§§§PRE§§§") content
  let content := scanReplace (litMatcher "</pre>" "§§§/PRE§§§") content
  let content := scanReplace aTagMatcher content
  let content := scanReplace (litMatcher "</a>" "§§§/A§§§") content
  let content := scanReplace stripTagMatcher content
  let content := scanReplace (litMatcher "§§§B§§§" "<b>") content
  let content := scanReplace (litMatcher "§§§/B§§§" "</b>") content
  let content := scanReplace (litMatcher "§§§I§§§" "<i>") content
  let content := scanReplace (litMatcher "§§§/I§§§" "</i>") content
  let content := scanReplace (litMatcher "§§§U§§§" "<u>") content
  let content := scanReplace (litMatcher "§§§/U§§§" "</u>") content
  let content := scanReplace (litMatcher "§§§S§§§" "<s>") content
  let content := scanReplace (litMatcher "§§§/S§§§" "</s>") content
  let content := scanReplace (litMatcher "§§§CODE§§§" "<code>") content
  let content := scanReplace (litMatcher "§§§/CODE§§§" "</code>") content
  let content := scanReplace (litMatcher "§§§PRE§§§" "<pre>") content
  let content := scanReplace (litMatcher "§§§/PRE§§§" "</pre>") content
  let content := scanReplace aRestoreMatcher content
  let content := scanReplace (litMatcher "§§§/A§§§" "</a>") content
  let content := scanReplace newlinesMatcher content
  String.mk content

/-! ## Basic lemmas about the string helpers -/

lemma stringMk_toList : ∀ s : String, String.mk s.toList = s
  | ⟨_⟩ => rfl

lemma containsList_nil : ∀ hay : List Char, containsList [] hay = true
  | [] => rfl
  | _ :: _ => by simp [containsList, startsWithList]

lemma noNewline_iff : ∀ cs : List Char, noNewline cs = true ↔ ∀ c ∈ cs, c ≠ '\n'
  | [] => by simp [noNewline]
  | c :: t => by
    rw [noNewline]
    by_cases hc : c = '\n'
    · subst hc; simp
    · simp [hc, noNewline_iff t]

lemma startsWithList_eq :
    ∀ (pat cs : List Char), startsWithList cs pat = true → cs = pat ++ cs.drop pat.length
  | [], cs, _ => by simp
  | p :: ps, [], h => by simp [startsWithList] at h
  | p :: ps, c :: t, h => by
    rw [startsWithList] at h
    by_cases hc : c = p
    · subst hc
      simp only [List.length_cons, List.drop_succ_cons, List.cons_append, List.cons.injEq,
        true_and]
      exact startsWithList_eq ps t (by simpa using h)
    · simp [hc] at h

lemma startsWithList_append : ∀ (pat t : List Char), startsWithList (pat ++ t) pat = true
  | [], t => by cases t <;> rfl
  | p :: ps, t => by simp [startsWithList, startsWithList_append ps t]

/-! ## The fueled wildcard matcher decides the anchored-pattern relation -/

lemma specAnchoredMatch_cons {c : Char} {s : List Char} {ss : List (List Char)}
    {t : List Char} (hc : c ≠ '\n') (h : SpecAnchoredMatch (s :: ss) t) :
    SpecAnchoredMatch (s :: ss) (c :: t) := by
  cases h with
  | seg _ _ g rest hg hm =>
    have hg2 : ∀ x ∈ c :: g, x ≠ '\n' := by
      intro x hx
      rcases List.mem_cons.mp hx with hx | hx
      · subst hx; exact hc
      · exact hg x hx
    have := SpecAnchoredMatch.seg s ss (c :: g) rest hg2 hm
    simpa using this

lemma wildAuxF_sound :
    ∀ (fuel : Nat) (cs : List Char) (segs : List (List Char)),
      cs.length + segs.length < fuel → wildAuxF fuel cs segs = true →
      SpecAnchoredMatch segs cs := by
  intro fuel
  induction fuel with
  | zero => intro cs segs hlt; omega
  | succ n ih =>
    intro cs segs hlt h
    cases segs with
    | nil =>
      exact SpecAnchoredMatch.done cs ((noNewline_iff cs).mp (by simpa [wildAuxF] using h))
    | cons seg rest =>
      simp only [wildAuxF] at h
      rw [Bool.or_eq_true] at h
      rcases h with hl | hr
      · rw [Bool.and_eq_true] at hl
        obtain ⟨hs, hrec⟩ := hl
        have hcs := startsWithList_eq seg cs hs
        have hb : (cs.drop seg.length).length + rest.length < n := by
          have := List.length_drop seg.length cs
          simp only [List.length_cons] at hlt
          omega
        have hm := ih (cs.drop seg.length) rest hb hrec
        have := SpecAnchoredMatch.seg seg rest [] (cs.drop seg.length) (by simp) hm
        rw [hcs]
        simpa using this
      · cases cs with
        | nil => simp at hr
        | cons c t =>
          have hr2 : (if c = '\n' then false else wildAuxF n t (seg :: rest)) = true := hr
          by_cases hc : c = '\n'
          · rw [if_pos hc] at hr2
            exact absurd hr2 (by simp)
          · rw [if_neg hc] at hr2
            have hb : t.length + (seg :: rest).length < n := by
              simp only [List.length_cons] at hlt ⊢
              omega
            exact specAnchoredMatch_cons hc (ih t (seg :: rest) hb hr2)

lemma wildAuxF_complete :
    ∀ (fuel : Nat) (cs : List Char) (segs : List (List Char)),
      cs.length + segs.length < fuel → SpecAnchoredMatch segs cs →
      wildAuxF fuel cs segs = true := by
  intro fuel
  induction fuel with
  | zero => intro cs segs hlt; omega
  | succ n ih =>
    intro cs segs hlt hm
    cases hm with
    | done cs h =>
      simpa [wildAuxF] using (noNewline_iff cs).mpr h
    | seg s ss g rest hg hrec =>
      cases g with
      | nil =>
        simp only [List.nil_append] at hlt ⊢
        simp only [wildAuxF]
        rw [Bool.or_eq_true]
        left
        rw [Bool.and_eq_true]
        refine ⟨startsWithList_append s rest, ?_⟩
        rw [List.drop_left]
        apply ih rest ss ?_ hrec
        simp only [List.length_append, List.length_cons] at hlt
        omega
      | cons c g2 =>
        have hc : c ≠ '\n' := hg c (by simp)
        rw [show ((c :: g2) ++ (s ++ rest)) = c :: (g2 ++ (s ++ rest)) by simp]
        simp only [wildAuxF]
        rw [Bool.or_eq_true]
        right
        show (if c = '\n' then false else wildAuxF n (g2 ++ (s ++ rest)) (s :: ss)) = true
        rw [if_neg hc]
        have hg2 : ∀ x ∈ g2, x ≠ '\n' := fun x hx => hg x (List.mem_cons_of_mem c hx)
        apply ih (g2 ++ (s ++ rest)) (s :: ss) ?_ (SpecAnchoredMatch.seg s ss g2 rest hg2 hrec)
        simp only [List.length_append, List.length_cons] at hlt ⊢
        omega

lemma wildMatch_iff_spec (cs : List Char) (segs : List (List Char)) :
    wildMatch cs segs = true ↔ SpecAnchoredMatch segs cs :=
  ⟨wildAuxF_sound _ _ _ (Nat.lt_succ_self _), wildAuxF_complete _ _ _ (Nat.lt_succ_self _)⟩

/-! ## Lemmas about the item loop of `fetchRSS` -/

lemma foldl_fetchStep_fst (last now : Nat) :
    ∀ (items : List Item) (acc : List Message × Nat),
      (items.foldl (fetchStep last now) acc).1 =
        acc.1 ++ (items.filter (fun it => decide (last < getItemTime it now))).map
          (fun it => itemMessage it now)
  | [], acc => by simp
  | it :: rest, acc => by
    rw [List.foldl_cons, foldl_fetchStep_fst last now rest]
    by_cases h : last < getItemTime it now
    · simp [fetchStep, h]
    · simp [fetchStep, h]

lemma fetchStep_snd_le (last now : Nat) (acc : List Message × Nat) (item : Item) :
    acc.2 ≤ (fetchStep last now acc item).2 := by
  simp only [fetchStep]
  by_cases h : acc.2 < getItemTime item now
  · rw [if_pos h]; omega
  · rw [if_neg h]

lemma fetchStep_snd_ge (last now : Nat) (acc : List Message × Nat) (item : Item) :
    getItemTime item now ≤ (fetchStep last now acc item).2 := by
  simp only [fetchStep]
  by_cases h : acc.2 < getItemTime item now
  · rw [if_pos h]
  · rw [if_neg h]; omega

lemma foldl_fetchStep_snd_mono (last now : Nat) :
    ∀ (items : List Item) (acc : List Message × Nat),
      acc.2 ≤ (items.foldl (fetchStep last now) acc).2
  | [], acc => le_refl _
  | it :: rest, acc => by
    rw [List.foldl_cons]
    exact le_trans (fetchStep_snd_le last now acc it)
      (foldl_fetchStep_snd_mono last now rest _)

lemma foldl_fetchStep_snd_ge (last now : Nat) :
    ∀ (items : List Item) (acc : List Message × Nat) (it : Item), it ∈ items →
      getItemTime it now ≤ (items.foldl (fetchStep last now) acc).2
  | [], _, it, h => absurd h (List.not_mem_nil it)
  | a :: rest, acc, it, h => by
    rw [List.foldl_cons]
    rcases List.mem_cons.mp h with h | h
    · subst h
      exact le_trans (fetchStep_snd_ge last now acc it)
        (foldl_fetchStep_snd_mono last now rest _)
    · exact foldl_fetchStep_snd_ge last now rest _ it h

lemma fetchRSS_ok_fst (items : List Item) (fd : FeedData) (now : Nat) :
    (fetchRSS (Except.ok items) fd now).1 =
      Except.ok ((items.filter (fun it => decide (fd.lastUpdateTime < getItemTime it now))).map
        (fun it => itemMessage it now)) := by
  cases items with
  | nil => rfl
  | cons first rest =>
    have hf := foldl_fetchStep_fst fd.lastUpdateTime now (first :: rest) ([], 0)
    simp only [List.nil_append] at hf
    simp only [fetchRSS, fetchLoop]
    split
    · rw [hf]
    · rw [hf]

/-! ## Lemmas about the keyword loop of `matchesKeywords` -/

lemma matchKeywordStep_snd_ne (content : List Char)
    (acc : List (List Char) × List (List Char)) (k : String) (h : acc.2 ≠ []) :
    (matchKeywordStep content acc k).2 ≠ [] := by
  simp only [matchKeywordStep]
  split_ifs <;> simp [h]

lemma matchKeywordStep_blocks (content : List Char)
    (acc : List (List Char) × List (List Char)) (k : String)
    (h : keywordBlocks content k = true) :
    (matchKeywordStep content acc k).2 ≠ [] := by
  simp [keywordBlocks] at h
  obtain ⟨h1, h2, h3⟩ := h
  simp [matchKeywordStep, h1, h2, h3]

lemma foldl_matchKeywordStep_snd_ne (content : List Char) :
    ∀ (ks : List String) (acc : List (List Char) × List (List Char)), acc.2 ≠ [] →
      (ks.foldl (matchKeywordStep content) acc).2 ≠ []
  | [], _, h => h
  | k :: rest, acc, h => by
    rw [List.foldl_cons]
    exact foldl_matchKeywordStep_snd_ne content rest _ (matchKeywordStep_snd_ne content acc k h)

lemma foldl_matchKeywordStep_blocks (content : List Char) :
    ∀ (ks : List String) (acc : List (List Char) × List (List Char)),
      (∃ k ∈ ks, keywordBlocks content k = true) →
      (ks.foldl (matchKeywordStep content) acc).2 ≠ []
  | [], _, h => absurd h (by simp)
  | k :: rest, acc, h => by
    rw [List.foldl_cons]
    obtain ⟨k0, hk0, hb⟩ := h
    rcases List.mem_cons.mp hk0 with hk | hk
    · subst hk
      exact foldl_matchKeywordStep_snd_ne content rest _
        (matchKeywordStep_blocks content acc k0 hb)
    · exact foldl_matchKeywordStep_blocks content rest _ ⟨k0, hk, hb⟩

/-- Any hitting block rule in the rule set forces `matchesKeywords` to
return the empty list. -/
lemma matchesKeywords_eq_nil_of_block (msg : Message) (keywords : List String)
    (h : ∃ k ∈ keywords, keywordBlocks (msgContent msg) k = true) :
    matchesKeywords msg keywords = [] := by
  obtain ⟨k, hk, hb⟩ := h
  have hne : keywords ≠ [] := List.ne_nil_of_mem hk
  have hblocked := foldl_matchKeywordStep_blocks (msgContent msg) keywords ([], []) ⟨k, hk, hb⟩
  simp only [matchesKeywords, if_neg hne]
  rw [if_neg hblocked]

lemma keywordBlocks_dash (content : List Char) : keywordBlocks content "-" = true := by
  have h : keywordBlocks content "-" = containsList [] content := rfl
  rw [h, containsList_nil]

/-! ## Lemmas about the push loop of `processSubscription` -/

lemma pushUserStep_mem (msg : Message) (uk : Int → List String)
    (acc : List (Int × Message)) (uid : Int) (u : Int) (m : Message)
    (h : (u, m) ∈ pushUserStep msg uk acc uid) : (u, m) ∈ acc ∨ uk u ≠ [] := by
  simp only [pushUserStep] at h
  split_ifs at h with h1 h2
  · exact Or.inl h
  · exact Or.inl h
  · rcases List.mem_append.mp h with h | h
    · exact Or.inl h
    · right
      have hu : u = uid := by simpa using congrArg Prod.fst (List.mem_singleton.mp h)
      rw [hu]
      exact h1

lemma foldl_pushUserStep_mem (msg : Message) (uk : Int → List String) (u : Int) (m : Message) :
    ∀ (users : List Int) (acc : List (Int × Message)),
      (u, m) ∈ users.foldl (pushUserStep msg uk) acc → (u, m) ∈ acc ∨ uk u ≠ []
  | [], _, h => Or.inl h
  | uid :: rest, acc, h => by
    rw [List.foldl_cons] at h
    rcases foldl_pushUserStep_mem msg uk u m rest _ h with h | h
    · exact pushUserStep_mem msg uk acc uid u m h
    · exact Or.inr h

lemma processSubscription_mem (uk : Int → List String) (users : List Int)
    (u : Int) (m : Message) :
    ∀ (messages : List Message) (acc : List (Int × Message)),
      (u, m) ∈ messages.foldl (fun acc msg => users.foldl (pushUserStep msg uk) acc) acc →
      (u, m) ∈ acc ∨ uk u ≠ []
  | [], _, h => Or.inl h
  | msg :: rest, acc, h => by
    rw [List.foldl_cons] at h
    rcases processSubscription_mem uk users u m rest _ h with h | h
    · exact foldl_pushUserStep_mem msg uk u m users acc h
    · exact Or.inr h

lemma stringMk_data : ∀ s : String, String.mk s.data = s
  | ⟨_⟩ => rfl

/-! ## Claim theorems -/

/-- Claim C1, counterexample.  The claim states that no fetch ever
decreases a stored watermark, even when every item of the snapshot is
older than it.  Concretely, fetching a feed whose single item has
effective time 5 while the stored watermark is 10 overwrites the
watermark with 5, strictly decreasing it. -/
theorem fetchRSS_watermark_decreases :
    ((fetchRSS (Except.ok [Item.mk "t" "d" "l" (some 5) none])
        (FeedData.mk 10 "old") 99).2).lastUpdateTime <
      (FeedData.mk 10 "old").lastUpdateTime := by decide

/-- Claim C1, amended.  After a successful fetch the stored watermark is
at least its previous value provided some item of the snapshot has
effective time at or after the previous watermark (in particular whenever
any item is new); a snapshot whose items are all strictly older resets
the watermark to the snapshot maximum, which decreases it. -/
theorem fetchRSS_watermark_nondecreasing_of_newer_item (items : List Item)
    (fd : FeedData) (now : Nat)
    (h : ∃ it ∈ items, fd.lastUpdateTime ≤ getItemTime it now) :
    fd.lastUpdateTime ≤ ((fetchRSS (Except.ok items) fd now).2).lastUpdateTime := by
  obtain ⟨it, hmem, hle⟩ := h
  cases items with
  | nil => exact absurd hmem (List.not_mem_nil it)
  | cons first rest =>
    have hr : getItemTime it now ≤
        ((first :: rest).foldl (fetchStep fd.lastUpdateTime now) ([], 0)).2 :=
      foldl_fetchStep_snd_ge fd.lastUpdateTime now (first :: rest) ([], 0) it hmem
    simp only [fetchRSS, fetchLoop]
    split
    · exact le_refl _
    · simpa using le_trans hle hr

/-- Witness for the amended claim C1 at a concrete input. -/
theorem fetchRSS_watermark_nondecreasing_of_newer_item_witness :
    (FeedData.mk 10 "x").lastUpdateTime ≤
      ((fetchRSS (Except.ok [Item.mk "t" "d" "l" (some 20) none])
          (FeedData.mk 10 "x") 3).2).lastUpdateTime :=
  fetchRSS_watermark_nondecreasing_of_newer_item _ _ _
    ⟨Item.mk "t" "d" "l" (some 20) none, by decide, by decide⟩

/-- Claim C2.  An item of the fetched snapshot is returned as a new
message exactly when its effective time (published, else updated, else
the processing time) is strictly after the previously stored watermark. -/
theorem fetchRSS_new_iff (items : List Item) (fd : FeedData) (now : Nat)
    (msgs : List Message)
    (h : (fetchRSS (Except.ok items) fd now).1 = Except.ok msgs)
    (item : Item) (hmem : item ∈ items) :
    itemMessage item now ∈ msgs ↔ fd.lastUpdateTime < getItemTime item now := by
  rw [fetchRSS_ok_fst] at h
  injection h with h2
  subst h2
  constructor
  · intro hin
    obtain ⟨it2, hit2, heq⟩ := List.mem_map.mp hin
    obtain ⟨hmem2, hp⟩ := List.mem_filter.mp hit2
    have hpd : getItemTime it2 now = getItemTime item now := congrArg Message.pubDate heq
    rw [← hpd]
    exact of_decide_eq_true hp
  · intro hlt
    exact List.mem_map.mpr ⟨item, List.mem_filter.mpr ⟨hmem, decide_eq_true hlt⟩, rfl⟩

/-- Witness for claim C2 at a concrete input. -/
theorem fetchRSS_new_iff_witness :
    itemMessage (Item.mk "t" "d" "l" (some 3) none) 9 ∈ [Message.mk "t" "d" "l" 3] :=
  (fetchRSS_new_iff [Item.mk "t" "d" "l" (some 3) none] (FeedData.mk 1 "x") 9
    [Message.mk "t" "d" "l" 3] rfl (Item.mk "t" "d" "l" (some 3) none)
    (by decide)).mpr (by decide)

/-- Claim C3.  If any block rule (rule carrying the `-` sigil) hits the
case-folded corpus, `matchesKeywords` returns the empty list, no matter
how many non-block rules also match. -/
theorem matchesKeywords_block_precedence (msg : Message) (keywords : List String)
    (h : ∃ k ∈ keywords, keywordBlocks (msgContent msg) k = true) :
    matchesKeywords msg keywords = [] :=
  matchesKeywords_eq_nil_of_block msg keywords h

/-- Witness for claim C3: the concrete case of the claim,
title "foo bar", empty description, rules ["foo", "-bar"]. -/
theorem matchesKeywords_block_precedence_witness :
    matchesKeywords (Message.mk "foo bar" "" "" 0) ["foo", "-bar"] = [] :=
  matchesKeywords_block_precedence (Message.mk "foo bar" "" "" 0) ["foo", "-bar"]
    ⟨"-bar", by decide, by decide⟩

/-- Claim C4.  A user whose keyword set is empty (or absent, which the
keyword map models as the empty list) never receives a push; and in the
concrete scenario of the claim (users 1 and 2, user 1 with rule "ai",
user 2 without keywords, one new item titled "AI breakthrough") exactly
one push is produced, addressed to user 1. -/
theorem processSubscription_empty_keywords_no_push :
    (∀ (messages : List Message) (users : List Int) (uk : Int → List String)
        (u : Int) (m : Message),
      uk u = [] → (u, m) ∉ processSubscription messages users uk)
    ∧ processSubscription [Message.mk "AI breakthrough" "" "" 0] [1, 2]
        (fun u => if u = 1 then ["ai"] else []) =
      [(1, Message.mk "AI breakthrough" "" "" 0)] := by
  constructor
  · intro messages users uk u m hempty hin
    rcases processSubscription_mem uk users u m messages [] hin with h | h
    · exact absurd h (List.not_mem_nil _)
    · exact h hempty
  · decide

/-- Witness for claim C4: user 2, who has no keywords, is not pushed to
in the concrete scenario. -/
theorem processSubscription_empty_keywords_no_push_witness :
    (2, Message.mk "AI breakthrough" "" "" 0) ∉
      processSubscription [Message.mk "AI breakthrough" "" "" 0] [1, 2]
        (fun u => if u = 1 then ["ai"] else []) :=
  processSubscription_empty_keywords_no_push.1 _ _ _ 2 _ (by decide)

/-- Claim C5.  The wildcard test of `matchesKeywords` is the anchored
pattern built by replacing every `*` with a match-anything gap
(equivalent to `^.*pattern.*$`): `wildMatch` decides exactly the
declarative anchored decomposition relation, and concretely the rule
"你*帅*" matches the corpus of title "你好帅呀" and does not match the
corpus of title "你好丑". -/
theorem matchesKeywords_wildcard_regex :
    (∀ (cs : List Char) (segs : List (List Char)),
      wildMatch cs segs = true ↔ SpecAnchoredMatch segs cs)
    ∧ matchesKeywords (Message.mk "你好帅呀" "" "" 0) ["你*帅*"] = ["你*帅*"]
    ∧ matchesKeywords (Message.mk "你好丑" "" "" 0) ["你*帅*"] = [] :=
  ⟨wildMatch_iff_spec, by decide, by decide⟩

/-- Witness for claim C5: the anchored decomposition relation holds on
the corpus of the concrete matching example. -/
theorem matchesKeywords_wildcard_regex_witness :
    SpecAnchoredMatch [['你'], ['帅'], []] (String.toList "你好帅呀 ") :=
  (matchesKeywords_wildcard_regex.1 (String.toList "你好帅呀 ") [['你'], ['帅'], []]).mp
    (by decide)

/-- Claim C6, counterexample.  The claim states that the sanitizer maps
the input to exactly "<b>x</b>\nz"; it does not: the inner text of the
script tag survives, only the tag markers are stripped. -/
theorem cleanHTMLContent_spec_example_ne :
    cleanHTMLContent "<b>x</b><script>y</script><br>z" ≠ "<b>x</b>\nz" := by decide

/-- Claim C6, amended.  The sanitizer strips the script tag markers but
keeps the enclosed text, turns the br tag into a newline and keeps the
whitelisted bold pair: the input sanitizes to "<b>x</b>y\nz". -/
theorem cleanHTMLContent_example_eval :
    cleanHTMLContent "<b>x</b><script>y</script><br>z" = "<b>x</b>y\nz" := by decide

/-- Claim C7.  A parse error propagates unchanged and leaves the stored
watermark untouched, and a feed with zero items yields no messages, no
error, and an untouched watermark. -/
theorem fetchRSS_error_and_empty_feed :
    (∀ (e : String) (fd : FeedData) (now : Nat),
      fetchRSS (Except.error e) fd now = (Except.error e, fd))
    ∧ (∀ (fd : FeedData) (now : Nat),
      fetchRSS (Except.ok []) fd now = (Except.ok [], fd)) :=
  ⟨fun _ _ _ => rfl, fun _ _ => rfl⟩

/-- Claim C8.  When a push is recorded on a date different from the
stored one, the counters are reset before the increment: the total
becomes 1, the stored date becomes the observed date, and the per-feed
counter of the pushed feed becomes 1. -/
theorem recordPush_date_rollover (st : PushStats) (rssName currentDate : String)
    (h : st.date ≠ currentDate) :
    (recordPush st rssName currentDate).totalPush = 1
    ∧ (recordPush st rssName currentDate).date = currentDate
    ∧ (recordPush st rssName currentDate).byRSS rssName = 1 := by
  simp [recordPush, h]

/-- Witness for claim C8: the concrete rollover of the claim, stored date
2025-01-01 with total 5, push observed on 2025-01-02. -/
theorem recordPush_date_rollover_witness :
    (recordPush (PushStats.mk "2025-01-01" 5 (fun _ => 0)) "Tech" "2025-01-02").totalPush = 1 :=
  (recordPush_date_rollover _ _ _ (by decide)).1

/-- Claim C9.  A wildcard rule whose derived anchored regular expression
does not match the corpus (`wildcardRegexMatch` is also false when the
pattern falls outside the modelled regex-literal fragment, the
compile-failure case) is still tested by plain substring containment of
the literal lowercased rule text, `*` characters included, and matches
when that containment holds. -/
theorem matchesKeywords_wildcard_fallback_substring (msg : Message) (r : String)
    (h1 : listTrim r.toList = r.toList)
    (h2 : r.toList ≠ [])
    (h3 : startsWithList r.toList ['-'] = false)
    (h4 : goToLowerList r.toList = r.toList)
    (h5 : containsList ['*'] r.toList = true)
    (h6 : wildcardRegexMatch (msgContent msg) r.toList = false)
    (h7 : containsList r.toList (msgContent msg) = true) :
    matchesKeywords msg [r] = [r] := by
  simp only [String.toList] at h1 h2 h3 h4 h5 h6 h7
  simp [matchesKeywords, matchKeywordStep, keywordHit, h1, h2, h3, h4, h5, h6, h7,
    stringMk_data]

/-- Witness for claim C9: the rule "a*b" matches a corpus that contains
the literal text "a*b" behind a newline, where the anchored regular
expression cannot match because its gaps do not cross newlines. -/
theorem matchesKeywords_wildcard_fallback_substring_witness :
    matchesKeywords (Message.mk "a\nc a*b" "" "" 0) ["a*b"] = ["a*b"] :=
  matchesKeywords_wildcard_fallback_substring (Message.mk "a\nc a*b" "" "" 0) "a*b"
    (by decide) (by decide) (by decide) (by decide) (by decide) (by decide) (by decide)

/-- Claim C10.  The rule consisting of the single character `-` is a
block rule whose stripped text is empty; the empty string is contained in
every corpus, so any rule set containing it suppresses every message. -/
theorem matchesKeywords_dash_rule_blocks_all (msg : Message) (keywords : List String)
    (h : "-" ∈ keywords) : matchesKeywords msg keywords = [] :=
  matchesKeywords_eq_nil_of_block msg keywords ⟨"-", h, keywordBlocks_dash (msgContent msg)⟩

/-- Witness for claim C10 at a concrete message and rule set. -/
theorem matchesKeywords_dash_rule_blocks_all_witness :
    matchesKeywords (Message.mk "any title" "any description" "" 0) ["-"] = [] :=
  matchesKeywords_dash_rule_blocks_all (Message.mk "any title" "any description" "" 0) ["-"]
    (by decide)

end TGBotRSS
